import Mathlib

/-!
# Verification of the `sequence` package

A shallow embedding of the Go package `sequence` (file-name sequence
manager).  File names and sequence identities are modelled as `List Char`
(Go strings compared bytewise coincide, on valid UTF-8, with code-point
lists compared lexicographically).  Go's `map[int]struct{}` frame set is
modelled as a membership list, Go's `map[string]*Seq` as an association
list; all externally observable orderings are produced by explicit
sorting, exactly as in the source.
-/

deriving instance DecidableEq for Except

namespace Sequence

/-- The three error values of the package:
`ErrNotSeqfile`, `ErrFrameExists`, `ErrNegativeFrame`. -/
inductive Err where
  | NotSeqfile
  | FrameExists
  | NegativeFrame
deriving DecidableEq, Repr

/-- Embeds `DefaultSplitter.Split`, i.e. `FindStringSubmatch` with
`reDefaultSplit = (.*\D)*(\d+)(.*?)$` under Go RE2 leftmost-first
semantics, where `.` matches any character except `'\n'`, `$` matches only
at end of text, `\D` (any non-digit) also matches `'\n'`, and a repeated
capture group reports its last iteration.  A match exists iff the name
contains a digit with no `'\n'` after its last digit (the lazy `(.*?)$`
suffix cannot cross a newline).  The match then takes the right-most
maximal digit run as group 2 and the digit-free remainder after it as
group 3.  `(.*\D)*` consumes everything before the run; its iterations
split right after each `'\n'` there (the greedy `.*` cannot cross them),
so group 1 — returned as `pre` — is only the final iteration: it starts
just after the last `'\n'` lying strictly before the character that
immediately precedes the run.  Scanning from the right, `pre` is that
run-preceding character followed by the subsequent characters up to (not
including) the next `'\n'`. -/
def splitDefault (fname : List Char) : Except Err (List Char × List Char × List Char) :=
  let rev := fname.reverse
  let post := rev.takeWhile (fun c => !c.isDigit)
  let rest := rev.dropWhile (fun c => !c.isDigit)
  let digits := rest.takeWhile (fun c => c.isDigit)
  let remaining := rest.dropWhile (fun c => c.isDigit)
  let pre :=
    match remaining with
    | [] => []
    | c :: cs => c :: cs.takeWhile (fun x => x ≠ '\n')
  if digits = [] ∨ '\n' ∈ post then .error .NotSeqfile
  else .ok (pre.reverse, digits.reverse, post.reverse)

/-- Embeds `FmtSharp`: `pre + strings.Repeat("#", len(digits)) + post`. -/
def FmtSharp (pre digits post : List Char) : List Char :=
  pre ++ List.replicate digits.length '#' ++ post

/-- Embeds `FmtDollarF`: `pre + "$F" + strconv.Itoa(len(digits)) + post`. -/
def FmtDollarF (pre digits post : List Char) : List Char :=
  pre ++ ['$', 'F'] ++ (Nat.repr digits.length).data ++ post

/-- Embeds `FmtPercentD`: `pre + "%0" + strconv.Itoa(len(digits)) + "d" + post`. -/
def FmtPercentD (pre digits post : List Char) : List Char :=
  pre ++ ['%', '0'] ++ (Nat.repr digits.length).data ++ ['d'] ++ post

/-- Embeds `Range`: a contiguous frame range, `Max` inclusive. -/
structure Range where
  Min : Int
  Max : Int
deriving DecidableEq, Repr

/-- Embeds `NewRange`: both bounds start at the given frame. -/
def NewRange (f : Int) : Range := ⟨f, f⟩

/-- Two's-complement wraparound to a 64-bit signed integer, the value a Go
`int` computation produces on a 64-bit platform. -/
def wrap64 (z : Int) : Int := (z + 2 ^ 63) % 2 ^ 64 - 2 ^ 63

/-- Embeds `Range.Extend`: Go mutates the receiver and returns a `bool`;
here we return the flag together with the post-state.  `r.Max+1` is a Go
`int` (64-bit) addition, so it wraps: at `Max = 2^63 - 1` the comparison
is against `-2^63`. -/
def Range.Extend (r : Range) (f : Int) : Bool × Range :=
  if f ≠ wrap64 (r.Max + 1) then (false, r) else (true, ⟨r.Min, f⟩)

/-- Decimal rendering of an integer, as Go's `fmt` verb `%d`. -/
def intStr (n : Int) : List Char :=
  if n < 0 then '-' :: (Nat.repr n.natAbs).data else (Nat.repr n.toNat).data

/-- Embeds `Range.String`: `"{Min}"` when the bounds agree, else
`"{Min}-{Max}"`. -/
def Range.toDisplayString (r : Range) : List Char :=
  if r.Min = r.Max then intStr r.Min else intStr r.Min ++ ['-'] ++ intStr r.Max

/-- Embeds the accumulation pattern `if str != "" { str += sep }; str += x`
shared by `Seq.String` and `Manager.String`. -/
def goJoin (sep : List Char) (items : List (List Char)) : List Char :=
  items.foldl (fun acc x => if acc = [] then x else acc ++ sep ++ x) []

/-- Embeds `Seq`: Go stores the frames as the key set of a
`map[int]struct{}`; we store the membership list (reachable states keep it
duplicate-free, mirroring map keys). -/
structure Seq where
  frames : List Int
deriving DecidableEq, Repr

/-- Embeds `NewSeq`: an empty frame set. -/
def NewSeq : Seq := ⟨[]⟩

instance : Inhabited Seq := ⟨NewSeq⟩

/-- Embeds `Seq.AddFrame`: negative frames are rejected, duplicates are
rejected, otherwise the frame is inserted.  Go mutates the receiver and
returns an error value; here the optional error is returned together with
the post-state (unchanged on both error paths). -/
def Seq.AddFrame (s : Seq) (f : Int) : Option Err × Seq :=
  if f < 0 then (some .NegativeFrame, s)
  else if f ∈ s.frames then (some .FrameExists, s)
  else (none, ⟨f :: s.frames⟩)

/-- Embeds `sort.Ints(frames)` inside `Seq.Ranges`. -/
def Seq.sortedFrames (s : Seq) : List Int :=
  List.insertionSort (· ≤ ·) s.frames

/-- The loop body of `Seq.Ranges`: Go appends a pointer to the current range
and mutates it in place; functionally, the current range is emitted when a
frame fails to extend it. -/
def rangesAux : List Int → Range → List Range
  | [], r => [r]
  | f :: fs, r =>
    match r.Extend f with
    | (true, r') => rangesAux fs r'
    | (false, _) => r :: rangesAux fs (NewRange f)

/-- Embeds `Seq.Ranges`: sort the frames ascending, then greedily merge
consecutive frames into ranges. -/
def Seq.Ranges (s : Seq) : List Range :=
  match s.sortedFrames with
  | [] => []
  | f :: fs => rangesAux fs (NewRange f)

/-- Embeds `Seq.String`: the ranges' renderings joined by single spaces. -/
def Seq.toDisplayString (s : Seq) : List Char :=
  goJoin [' '] (s.Ranges.map Range.toDisplayString)

/-- Association-list lookup, embedding `m.Seqs[name]` (read). -/
def lookupSeq : List (List Char × Seq) → List Char → Option Seq
  | [], _ => none
  | (k, v) :: rest, n => if k = n then some v else lookupSeq rest n

/-- Association-list store, embedding `m.Seqs[name] = s` (write): replaces
the value at an existing key, otherwise adds a new entry. -/
def storeSeq : List (List Char × Seq) → List Char → Seq → List (List Char × Seq)
  | [], n, s => [(n, s)]
  | (k, v) :: rest, n, s =>
    if k = n then (k, s) :: rest else (k, v) :: storeSeq rest n s

/-- Decimal value of a digit string (the digits are '0'..'9'). -/
def digitsToNat (ds : List Char) : Nat :=
  ds.foldl (fun n c => 10 * n + (c.toNat - '0'.toNat)) 0

/-- Embeds `strconv.Atoi(digits)` with the error discarded, applied to a
non-empty all-digit string on a 64-bit platform: the decimal value when it
fits in `int64`, otherwise `Atoi` reports `ErrRange` and returns the
maximum `int64`, and `Manager.Add` ignores the error. -/
def atoiFrame (ds : List Char) : Int :=
  min (digitsToNat ds : Int) (2 ^ 63 - 1)

/-- Embeds `Manager` built over `DefaultSplitter` (as in
`NewManager(DefaultSplitter, formatting)`): the identity → sequence map as
an association list, plus the formatting function. -/
structure Manager where
  Seqs : List (List Char × Seq)
  formatting : List Char → List Char → List Char → List Char

/-- Embeds `NewManager`: an empty map and the given formatter. -/
def NewManager (formatting : List Char → List Char → List Char → List Char) : Manager :=
  ⟨[], formatting⟩

/-- Embeds `Manager.Add`: split the name, format the identity, parse the
frame, look up or lazily create the sequence (Go inserts the fresh
sequence into the map before `AddFrame` runs, so the entry persists even
when `AddFrame` fails), and delegate to `AddFrame`.  Go returns an error
and mutates the receiver; here the post-state is returned with the
optional error. -/
def Manager.Add (m : Manager) (fname : List Char) : Manager × Option Err :=
  match splitDefault fname with
  | .error e => (m, some e)
  | .ok (pre, digits, post) =>
    let name := m.formatting pre digits post
    let frame := atoiFrame digits
    let s := (lookupSeq m.Seqs name).getD NewSeq
    let es := s.AddFrame frame
    ({ m with Seqs := storeSeq m.Seqs name es.2 }, es.1)

/-- Embeds `Manager.SeqNames`: the map's keys, sorted ascending
(`sort.Strings`, bytewise lexicographic). -/
def Manager.SeqNames (m : Manager) : List (List Char) :=
  List.insertionSort (· ≤ ·) (m.Seqs.map Prod.fst)

/-- Embeds `Manager.String`: one line `"{name} {seq}"` per sequence name in
`SeqNames` order, joined by newlines. -/
def Manager.toDisplayString (m : Manager) : List Char :=
  goJoin ['\n']
    (m.SeqNames.map fun n =>
      n ++ [' '] ++ ((lookupSeq m.Seqs n).getD NewSeq).toDisplayString)

/-- The digit run captured by `splitDefault` is empty exactly when the name
has no decimal digit at all. -/
lemma splitDefault_digits_eq_nil_iff (name : List Char) :
    (name.reverse.dropWhile fun c => !c.isDigit).takeWhile (fun c => c.isDigit) = [] ↔
      ∀ c ∈ name, c.isDigit = false := by
  constructor
  · intro h c hc
    by_contra hd
    rw [Bool.not_eq_false] at hd
    rcases hB : name.reverse.dropWhile (fun c => !c.isDigit) with _ | ⟨b, t⟩
    · have := List.dropWhile_eq_nil_iff.mp hB c (by simpa using hc)
      simp [hd] at this
    · have hb : (!b.isDigit) = false := by
        have := List.head_dropWhile_not (fun c => !c.isDigit) name.reverse
          (by simp [hB])
        simpa [hB] using this
      have hbd : b.isDigit = true := by simpa using hb
      rw [hB, List.takeWhile_cons, hbd] at h
      simp at h
  · intro h
    have : name.reverse.dropWhile (fun c => !c.isDigit) = [] :=
      List.dropWhile_eq_nil_iff.mpr fun x hx => by simp [h x (by simpa using hx)]
    simp [this]

/-- What a successful `splitDefault` guarantees on a newline-free name:
the three parts reassemble to the input, the digit part is a non-empty
all-digit run, the suffix is digit-free, and the character just before the
run (the last of the prefix) is not a digit — i.e. the run is the
right-most maximal one.  (Without the newline-free hypothesis the prefix
capture is truncated at the last newline and reassembly fails.) -/
lemma splitDefault_ok_spec {name pre digits post : List Char}
    (hnl : '\n' ∉ name)
    (h : splitDefault name = .ok (pre, digits, post)) :
    pre ++ digits ++ post = name ∧ digits ≠ [] ∧
    (∀ c ∈ digits, c.isDigit = true) ∧
    (∀ c ∈ post, c.isDigit = false) ∧
    (∀ c, pre.getLast? = some c → c.isDigit = false) := by
  have hprem :
      (match
          (name.reverse.dropWhile fun c => !c.isDigit).dropWhile
            (fun c => c.isDigit) with
        | [] => ([] : List Char)
        | c :: cs => c :: cs.takeWhile (fun x => x ≠ '\n')) =
      (name.reverse.dropWhile fun c => !c.isDigit).dropWhile
        (fun c => c.isDigit) := by
    rcases hR : (name.reverse.dropWhile fun c => !c.isDigit).dropWhile
        (fun c => c.isDigit) with _ | ⟨c, cs⟩
    · rw [hR]
    · have hsub : ∀ x ∈ cs, x ≠ '\n' := by
        intro x hx
        intro hxeq
        apply hnl
        rw [← List.mem_reverse]
        refine (List.dropWhile_sublist (fun c => !c.isDigit)).subset
          ((List.dropWhile_sublist (fun c => c.isDigit)).subset ?_)
        rw [hR]
        exact hxeq ▸ List.mem_cons_of_mem _ hx
      have htks : cs.takeWhile (fun x => x ≠ '\n') = cs :=
        List.takeWhile_eq_self_iff.mpr fun x hx => by simp [hsub x hx]
      rw [hR]
      show c :: cs.takeWhile (fun x => x ≠ '\n') = c :: cs
      rw [htks]
  simp only [splitDefault] at h
  rw [hprem] at h
  split at h
  · exact absurd h (by simp)
  · rename_i hcond
    rw [not_or] at hcond
    obtain ⟨hne, _⟩ := hcond
    rw [Except.ok.injEq, Prod.mk.injEq, Prod.mk.injEq] at h
    obtain ⟨hpre, hdig, hpost⟩ := h
    subst hpre hdig hpost
    refine ⟨?_, ?_, ?_, ?_, ?_⟩
    · rw [← List.reverse_append, ← List.reverse_append,
        List.takeWhile_append_dropWhile, List.takeWhile_append_dropWhile,
        List.reverse_reverse]
    · intro hEq
      exact hne (by simpa using hEq)
    · intro c hc
      rw [List.mem_reverse] at hc
      exact List.mem_takeWhile_imp hc
    · intro c hc
      rw [List.mem_reverse] at hc
      have := List.mem_takeWhile_imp hc
      simpa using this
    · intro c hc
      rw [List.getLast?_reverse] at hc
      have h5 := List.head?_dropWhile_not (fun c => c.isDigit)
        (name.reverse.dropWhile fun c => !c.isDigit)
      rw [hc] at h5
      exact h5

/-- C3 counterexample: the claim asserts a successful split for every name
containing a digit, with the prefix being everything before the run.  Under
RE2 semantics `.` does not match `'\n'`: the name `"1\na"` contains a
digit yet `Split` fails with `NotSequenceFile` (the suffix after the run
would have to cross the newline), and on `"a\nb1c"` the reported prefix is
only `"b"` — the last `(.*\D)` iteration — so the parts do not reassemble
to the name. -/
theorem claim_C3_counterexample :
    ('1' ∈ "1\na".data ∧ '1'.isDigit = true ∧
      splitDefault "1\na".data = .error .NotSeqfile) ∧
    (splitDefault "a\nb1c".data = .ok ("b".data, "1".data, "c".data) ∧
      "b".data ++ "1".data ++ "c".data ≠ "a\nb1c".data) := by
  refine ⟨⟨by decide, by decide, by decide⟩, by decide, by decide⟩

/-- C3 amended: on any newline-free name containing a digit, the default
splitter returns the right-most maximal digit run with its
(digit-free-on-the-right) context, reassembling to the input; on any name
with no digit at all it fails with `NotSequenceFile`; and the four
documented example splits hold. -/
theorem claim_C3_default_split (name : List Char) :
    ('\n' ∉ name →
      (∃ c ∈ name, c.isDigit = true) →
      ∃ pre digits post,
        splitDefault name = .ok (pre, digits, post) ∧
        pre ++ digits ++ post = name ∧ digits ≠ [] ∧
        (∀ c ∈ digits, c.isDigit = true) ∧
        (∀ c ∈ post, c.isDigit = false) ∧
        (∀ c, pre.getLast? = some c → c.isDigit = false)) ∧
    ((∀ c ∈ name, c.isDigit = false) → splitDefault name = .error .NotSeqfile) ∧
    splitDefault "img.0001.exr".data = .ok ("img.".data, "0001".data, ".exr".data) ∧
    splitDefault "img_0001.exr".data = .ok ("img_".data, "0001".data, ".exr".data) ∧
    splitDefault "img0001.exr".data = .ok ("img".data, "0001".data, ".exr".data) ∧
    splitDefault "/a/b/c/img.0001.exr".data =
      .ok ("/a/b/c/img.".data, "0001".data, ".exr".data) := by
  refine ⟨?_, ?_, by decide, by decide, by decide, by decide⟩
  · intro hnl hex
    have hne : ¬((name.reverse.dropWhile fun c => !c.isDigit).takeWhile
        (fun c => c.isDigit) = []) := by
      rw [splitDefault_digits_eq_nil_iff]
      push_neg
      obtain ⟨c, hc, hd⟩ := hex
      exact ⟨c, hc, by simp [hd]⟩
    have hnp : '\n' ∉ (name.reverse.takeWhile fun c => !c.isDigit) := by
      intro hmem
      apply hnl
      rw [← List.mem_reverse]
      exact (List.takeWhile_sublist _).subset hmem
    obtain ⟨out, hok⟩ : ∃ out, splitDefault name = .ok out := by
      simp only [splitDefault]
      rw [if_neg (not_or.mpr ⟨hne, hnp⟩)]
      exact ⟨_, rfl⟩
    obtain ⟨pre, digits, post⟩ := out
    exact ⟨pre, digits, post, hok, splitDefault_ok_spec hnl hok⟩
  · intro h
    have hnil := (splitDefault_digits_eq_nil_iff name).mpr h
    simp only [splitDefault]
    rw [if_pos (Or.inl hnil)]

theorem claim_C3_default_split_witness :
    (∃ pre digits post,
      splitDefault "a1".data = .ok (pre, digits, post) ∧
      pre ++ digits ++ post = "a1".data ∧ digits ≠ [] ∧
      (∀ c ∈ digits, c.isDigit = true) ∧
      (∀ c ∈ post, c.isDigit = false) ∧
      (∀ c, pre.getLast? = some c → c.isDigit = false)) ∧
    splitDefault "abc".data = .error .NotSeqfile :=
  ⟨(claim_C3_default_split "a1".data).1 (by decide) (by decide),
   (claim_C3_default_split "abc".data).2.1 (by decide)⟩

/-- `wrap64` is the identity on values representable in a signed 64-bit
integer. -/
lemma wrap64_eq_self {z : Int} (h1 : -(2 ^ 63) ≤ z) (h2 : z < 2 ^ 63) :
    wrap64 z = z := by
  unfold wrap64
  omega

/-- The smallest positive overflow: `2^63` wraps to `-2^63`. -/
lemma wrap64_two_pow : wrap64 (2 ^ 63) = -(2 ^ 63) := by decide

/-- Invariants of the `Seq.Ranges` loop: starting from a well-formed current
range `r` and a strictly ascending list of int64-representable frames all
above `r.Max`, the produced ranges start at `r.Min`, are separated by gaps
of at least two and strictly ascending in `Min`, are well-formed, and
cover exactly `[r.Min, r.Max] ∪ fs`.  The bounds make the wrapping
`r.Max+1` inside `Extend` coincide with the mathematical successor: a
frame can only equal `wrap64 (Max+1)` when no overflow occurred. -/
lemma rangesAux_spec (fs : List Int) (r : Range)
    (hr : r.Min ≤ r.Max) (hchain : List.Chain (· < ·) r.Max fs)
    (hlow : -(2 ^ 63) ≤ r.Max) (hhigh : r.Max ≤ 2 ^ 63 - 1)
    (hbnd : ∀ x ∈ fs, x ≤ 2 ^ 63 - 1) :
    (∃ t ts, rangesAux fs r = t :: ts ∧ t.Min = r.Min) ∧
    List.Chain' (fun a b => a.Max + 2 ≤ b.Min ∧ a.Min < b.Min) (rangesAux fs r) ∧
    (∀ t ∈ rangesAux fs r, t.Min ≤ t.Max) ∧
    (∀ x : Int, (∃ t ∈ rangesAux fs r, t.Min ≤ x ∧ x ≤ t.Max) ↔
      (r.Min ≤ x ∧ x ≤ r.Max) ∨ x ∈ fs) := by
  induction fs generalizing r with
  | nil =>
    refine ⟨⟨r, [], rfl, rfl⟩, by simp [rangesAux], by simp [rangesAux, hr], ?_⟩
    intro x
    simp [rangesAux]
  | cons f fs ih =>
    cases hchain with
    | cons hlt hchain' =>
      have hfhi : f ≤ 2 ^ 63 - 1 := hbnd f (List.mem_cons_self _ _)
      have hbnd' : ∀ x ∈ fs, x ≤ 2 ^ 63 - 1 := fun x hx =>
        hbnd x (List.mem_cons_of_mem _ hx)
      have hfe : (f = wrap64 (r.Max + 1)) ↔ f = r.Max + 1 := by
        by_cases hc : r.Max + 1 < 2 ^ 63
        · rw [wrap64_eq_self (by omega) hc]
        · have h0 : r.Max + 1 = 2 ^ 63 := by omega
          rw [h0, wrap64_two_pow]
          constructor
          · intro hfeq
            exfalso
            omega
          · intro hfeq
            exfalso
            omega
      by_cases hf : f = r.Max + 1
      · have hfw : f = wrap64 (r.Max + 1) := hfe.mpr hf
        have hext : r.Extend f = (true, ⟨r.Min, f⟩) := by
          unfold Range.Extend
          rw [if_neg (not_not_intro hfw)]
        have hstep : rangesAux (f :: fs) r = rangesAux fs ⟨r.Min, f⟩ := by
          simp [rangesAux, hext]
        obtain ⟨hshape, hch, hbd, hmem⟩ :=
          ih ⟨r.Min, f⟩ (show r.Min ≤ f by omega) hchain'
            (show -(2 ^ 63) ≤ f by omega) hfhi hbnd'
        rw [hstep]
        refine ⟨hshape, hch, hbd, fun x => ?_⟩
        rw [hmem]
        simp only [List.mem_cons]
        constructor
        · rintro (⟨h1, h2⟩ | h)
          · by_cases hx : x ≤ r.Max
            · exact Or.inl ⟨h1, hx⟩
            · exact Or.inr (Or.inl (by omega))
          · exact Or.inr (Or.inr h)
        · rintro (⟨h1, h2⟩ | hx | h)
          · exact Or.inl ⟨h1, show x ≤ f by omega⟩
          · exact Or.inl ⟨show r.Min ≤ x by omega, show x ≤ f by omega⟩
          · exact Or.inr h
      · have hfw : ¬(f = wrap64 (r.Max + 1)) := fun hh => hf (hfe.mp hh)
        have hext : r.Extend f = (false, r) := by
          unfold Range.Extend
          rw [if_pos hfw]
        have hstep : rangesAux (f :: fs) r = r :: rangesAux fs (NewRange f) := by
          simp [rangesAux, hext]
        obtain ⟨⟨t, ts, hts, htmin⟩, hch, hbd, hmem⟩ :=
          ih (NewRange f) le_rfl hchain'
            (show -(2 ^ 63) ≤ f by omega) hfhi hbnd'
        rw [hstep]
        refine ⟨⟨r, _, rfl, rfl⟩, ?_, ?_, fun x => ?_⟩
        · rw [hts]
          rw [List.chain'_cons]
          refine ⟨?_, by rw [← hts]; exact hch⟩
          constructor
          · rw [htmin]; simp [NewRange]; omega
          · rw [htmin]; simp [NewRange]; omega
        · intro u hu
          rcases List.mem_cons.mp hu with h | h
          · exact h ▸ hr
          · exact hbd u h
        · simp only [List.mem_cons]
          constructor
          · rintro ⟨u, hu, h1, h2⟩
            rcases hu with h | h
            · exact Or.inl ⟨h ▸ h1, h ▸ h2⟩
            · rcases (hmem x).mp ⟨u, h, h1, h2⟩ with ⟨ha, hb⟩ | hb
              · simp only [NewRange] at ha hb
                exact Or.inr (Or.inl (le_antisymm hb ha))
              · exact Or.inr (Or.inr hb)
          · rintro (⟨h1, h2⟩ | hx | h)
            · exact ⟨r, Or.inl rfl, h1, h2⟩
            · obtain ⟨u, hu, h1, h2⟩ := (hmem x).mpr
                (Or.inl (show f ≤ x ∧ x ≤ f by omega))
              exact ⟨u, Or.inr hu, h1, h2⟩
            · obtain ⟨u, hu, h1, h2⟩ := (hmem x).mpr (Or.inr h)
              exact ⟨u, Or.inr hu, h1, h2⟩

/-- C2: for every sequence of distinct non-negative frames (each
representable in Go's 64-bit `int`, as every stored frame is), `Ranges()`
is the minimal ascending list of maximal contiguous closed intervals:
ranges are separated by gaps of at least two (no overlap, no adjacency),
sorted ascending by `Min`, well-formed, every integer inside a returned
range is a member, every member lies inside some returned range, and an
empty sequence yields the empty list. -/
theorem claim_C2_ranges (s : Seq) (hnd : s.frames.Nodup)
    (hnn : ∀ f ∈ s.frames, 0 ≤ f) (hbd : ∀ f ∈ s.frames, f ≤ 2 ^ 63 - 1) :
    List.Chain' (fun a b => a.Max + 2 ≤ b.Min) s.Ranges ∧
    List.Chain' (fun a b => a.Min < b.Min) s.Ranges ∧
    (∀ r ∈ s.Ranges, r.Min ≤ r.Max) ∧
    (∀ r ∈ s.Ranges, ∀ x : Int, r.Min ≤ x → x ≤ r.Max → x ∈ s.frames) ∧
    (∀ f ∈ s.frames, ∃ r ∈ s.Ranges, r.Min ≤ f ∧ f ≤ r.Max) ∧
    (s.frames = [] → s.Ranges = []) := by
  have hperm : s.sortedFrames.Perm s.frames := List.perm_insertionSort _ _
  have hsorted : List.Sorted (· ≤ ·) s.sortedFrames := List.sorted_insertionSort _ _
  have hnds : s.sortedFrames.Nodup := hperm.nodup_iff.mpr hnd
  have hlt : List.Sorted (· < ·) s.sortedFrames :=
    (hsorted.and hnds).imp fun ⟨hle, hne⟩ => lt_of_le_of_ne hle hne
  rcases hsf : s.sortedFrames with _ | ⟨f, fs⟩
  · have hfr : s.frames = [] := by
      have h0 := hperm.length_eq
      rw [hsf] at h0
      exact List.eq_nil_of_length_eq_zero h0.symm
    have hrg : s.Ranges = [] := by
      unfold Seq.Ranges
      rw [hsf]
    rw [hrg, hfr]
    simp
  · have hmemiff : ∀ x : Int, x ∈ s.frames ↔ x ∈ f :: fs := by
      intro x
      rw [← hsf]
      exact hperm.mem_iff.symm
    have hchain : List.Chain (· < ·) f fs := by
      rw [List.chain_iff_pairwise, ← hsf]
      exact hlt
    have hrg : s.Ranges = rangesAux fs (NewRange f) := by
      unfold Seq.Ranges
      rw [hsf]
    have hfmem : f ∈ s.frames := (hmemiff f).mpr (List.mem_cons_self _ _)
    obtain ⟨hshape, hch, hbds, hmem⟩ :=
      rangesAux_spec fs (NewRange f) le_rfl (by simpa [NewRange] using hchain)
        (show -(2 ^ 63) ≤ f by have := hnn f hfmem; omega)
        (hbd f hfmem)
        (fun x hx => hbd x ((hmemiff x).mpr (List.mem_cons_of_mem _ hx)))
    rw [hrg]
    refine ⟨hch.imp fun _ _ h => h.1, hch.imp fun _ _ h => h.2, hbds, ?_, ?_, ?_⟩
    · intro r hr x h1 h2
      rw [hmemiff x]
      rcases (hmem x).mp ⟨r, hr, h1, h2⟩ with ⟨ha, hb⟩ | hb
      · simp only [NewRange] at ha hb
        exact List.mem_cons.mpr (Or.inl (le_antisymm hb ha))
      · exact List.mem_cons.mpr (Or.inr hb)
    · intro g hg
      rcases List.mem_cons.mp ((hmemiff g).mp hg) with h | h
      · exact (hmem g).mpr (Or.inl (by simp [NewRange, h]))
      · exact (hmem g).mpr (Or.inr h)
    · intro hfr
      have h0 := hperm.length_eq
      rw [hsf, hfr] at h0
      simp at h0

theorem claim_C2_ranges_witness :
    ((⟨[1, 2, 3, 4, 98, 99, 100]⟩ : Seq).frames.Nodup ∧
      ∀ f ∈ (⟨[1, 2, 3, 4, 98, 99, 100]⟩ : Seq).frames, (0 : Int) ≤ f) ∧
    ∀ f ∈ (⟨[1, 2, 3, 4, 98, 99, 100]⟩ : Seq).frames,
      ∃ r ∈ (⟨[1, 2, 3, 4, 98, 99, 100]⟩ : Seq).Ranges, r.Min ≤ f ∧ f ≤ r.Max :=
  ⟨⟨by decide, by decide⟩,
   (claim_C2_ranges ⟨[1, 2, 3, 4, 98, 99, 100]⟩ (by decide) (by decide)
      (by decide)).2.2.2.2.1⟩

/-- `splitDefault` only ever fails with `NotSeqfile`. -/
lemma splitDefault_error_eq {name : List Char} {e : Err}
    (h : splitDefault name = .error e) : e = .NotSeqfile := by
  simp only [splitDefault] at h
  split at h
  · exact (Except.error.injEq _ _ ▸ h).symm
  · exact absurd h (by simp)

/-- The states a `Seq` can reach from `NewSeq` by `AddFrame` calls
(succeeding or failing).  `Ranges` and `String` take the sequence by value
and return fresh data in this embedding, so they cannot change the state
and need no step constructor. -/
inductive SeqReachable : Seq → Prop where
  | new : SeqReachable NewSeq
  | add (s : Seq) (f : Int) : SeqReachable s → SeqReachable (s.AddFrame f).2

/-- C8: every sequence reachable from `NewSeq` through arbitrary `AddFrame`
calls holds only distinct non-negative frames, the initial state is empty,
and no `AddFrame` call ever removes an already-inserted frame. -/
theorem claim_C8_seq_invariants :
    NewSeq.frames = [] ∧
    (∀ s, SeqReachable s → s.frames.Nodup ∧ ∀ f ∈ s.frames, 0 ≤ f) ∧
    (∀ (s : Seq) (f : Int), ∀ g ∈ s.frames, g ∈ (s.AddFrame f).2.frames) := by
  refine ⟨rfl, ?_, ?_⟩
  · intro s hs
    induction hs with
    | new => exact ⟨List.nodup_nil, by simp [NewSeq]⟩
    | add s f _ ih =>
      unfold Seq.AddFrame
      by_cases h1 : f < 0
      · simpa [h1] using ih
      · by_cases h2 : f ∈ s.frames
        · simpa [h1, h2] using ih
        · simp only [h1, h2, if_false]
          refine ⟨List.nodup_cons.mpr ⟨h2, ih.1⟩, ?_⟩
          intro g hg
          rcases List.mem_cons.mp hg with h | h
          · omega
          · exact ih.2 g h
  · intro s f g hg
    unfold Seq.AddFrame
    by_cases h1 : f < 0 <;> by_cases h2 : f ∈ s.frames <;>
      simp [h1, h2, hg]

theorem claim_C8_seq_invariants_witness :
    (NewSeq.AddFrame 5).2.frames.Nodup ∧
      ∀ f ∈ (NewSeq.AddFrame 5).2.frames, 0 ≤ f :=
  claim_C8_seq_invariants.2.1 _ (SeqReachable.add NewSeq 5 SeqReachable.new)

/-- C7 counterexample: the digit run `"9999999999999999999"` has decimal
value `9999999999999999999`, which exceeds `2^63 - 1`; Go's
`strconv.Atoi` reports a range error there and returns the maximum
`int64`, and `Manager.Add` discards the error, so the stored frame is
`9223372036854775807`, not the digit-run's decimal value as claimed. -/
theorem claim_C7_counterexample :
    digitsToNat "9999999999999999999".data = 9999999999999999999 ∧
    ((NewManager FmtSharp).Add "img.9999999999999999999.exr".data).1.Seqs =
      [("img.###################.exr".data, ⟨[9223372036854775807]⟩)] ∧
    (9223372036854775807 : Int) ≠ 9999999999999999999 :=
  ⟨by decide, by decide, by decide⟩

/-- C7 amended: the frame parsed by `Manager.Add` is always non-negative
and equals the digit-run's decimal value whenever that value fits in a
64-bit int (otherwise it is clamped to `2^63 - 1`); consequently
`Manager.Add` never returns `NegativeFrame` under the default splitter. -/
theorem claim_C7_frame_parse (m : Manager) (fname : List Char) :
    (∀ ds : List Char, 0 ≤ atoiFrame ds) ∧
    (∀ ds : List Char, digitsToNat ds ≤ 2 ^ 63 - 1 → atoiFrame ds = digitsToNat ds) ∧
    (m.Add fname).2 ≠ some Err.NegativeFrame := by
  have hnonneg : ∀ ds : List Char, 0 ≤ atoiFrame ds := fun ds =>
    le_min (Int.natCast_nonneg _) (by norm_num)
  refine ⟨hnonneg, ?_, ?_⟩
  · intro ds h
    have : (digitsToNat ds : Int) ≤ 2 ^ 63 - 1 := by
      have := h
      omega
    exact min_eq_left this
  · cases h : splitDefault fname with
    | error e =>
      have he := splitDefault_error_eq h
      subst he
      simp [Manager.Add, h]
    | ok t =>
      obtain ⟨pre, digits, post⟩ := t
      simp only [Manager.Add, h]
      have hlt : ¬(atoiFrame digits < 0) := not_lt.mpr (hnonneg digits)
      unfold Seq.AddFrame
      simp only [hlt, if_false]
      split <;> simp

theorem claim_C7_frame_parse_witness :
    atoiFrame "0001".data = (digitsToNat "0001".data : Int) ∧
    ((NewManager FmtSharp).Add "img.0001.exr".data).2 ≠ some Err.NegativeFrame :=
  ⟨(claim_C7_frame_parse (NewManager FmtSharp) "img.0001.exr".data).2.1
      "0001".data (by decide),
   (claim_C7_frame_parse (NewManager FmtSharp) "img.0001.exr".data).2.2⟩

/-- The Go accumulation loop, once the accumulator is non-empty, appends
`sep ++ x` for every remaining item. -/
lemma goJoin_go (sep : List Char) (items : List (List Char)) (acc : List Char)
    (hacc : acc ≠ []) :
    items.foldl (fun acc x => if acc = [] then x else acc ++ sep ++ x) acc =
      acc ++ (items.map (sep ++ ·)).flatten := by
  induction items generalizing acc with
  | nil => simp
  | cons x xs ih =>
    simp only [List.foldl_cons, List.map_cons, List.flatten_cons, if_neg hacc]
    rw [ih (acc ++ sep ++ x) (by simp [hacc])]
    simp [List.append_assoc]

/-- `intercalate` in closed form on a non-empty list of items. -/
lemma intercalate_eq_head_flatten (sep x : List Char) (xs : List (List Char)) :
    List.intercalate sep (x :: xs) = x ++ (xs.map (sep ++ ·)).flatten := by
  induction xs generalizing x with
  | nil => simp [List.intercalate]
  | cons y ys ih =>
    have h1 : List.intercalate sep (x :: y :: ys) =
        x ++ sep ++ List.intercalate sep (y :: ys) := by
      simp [List.intercalate, List.intersperse, List.append_assoc]
    rw [h1, ih y]
    simp [List.append_assoc]

/-- The Go conditional-separator loop equals `intercalate` as soon as every
item is non-empty (which holds for all rendered lines). -/
lemma goJoin_eq_intercalate (sep : List Char) (items : List (List Char))
    (h : ∀ x ∈ items, x ≠ []) :
    goJoin sep items = List.intercalate sep items := by
  cases items with
  | nil => simp [goJoin, List.intercalate]
  | cons x xs =>
    unfold goJoin
    rw [List.foldl_cons, if_pos rfl,
      goJoin_go sep xs x (h x (List.mem_cons_self _ _)),
      intercalate_eq_head_flatten]

/-- C5: `SeqNames` is exactly the stored identities sorted ascending (and
duplicate-free for any well-formed state), and the display string is the
`"{name} {sequence}"` lines in that order joined by single newlines with no
trailing newline; with no sequences it is empty. -/
theorem claim_C5_seqnames_display (m : Manager)
    (hk : (m.Seqs.map Prod.fst).Nodup) :
    List.Sorted (· ≤ ·) m.SeqNames ∧
    m.SeqNames.Perm (m.Seqs.map Prod.fst) ∧
    m.SeqNames.Nodup ∧
    m.toDisplayString = List.intercalate ['\n']
      (m.SeqNames.map fun n =>
        n ++ [' '] ++ ((lookupSeq m.Seqs n).getD NewSeq).toDisplayString) ∧
    (m.Seqs = [] → m.toDisplayString = []) := by
  have hperm : m.SeqNames.Perm (m.Seqs.map Prod.fst) := List.perm_insertionSort _ _
  refine ⟨List.sorted_insertionSort _ _, hperm, hperm.nodup_iff.mpr hk, ?_, ?_⟩
  · unfold Manager.toDisplayString
    refine goJoin_eq_intercalate _ _ ?_
    intro x hx
    obtain ⟨n, _, rfl⟩ := List.mem_map.mp hx
    simp
  · intro h
    simp [Manager.toDisplayString, Manager.SeqNames, h, goJoin]

theorem claim_C5_seqnames_display_witness :
    (Manager.SeqNames ⟨[("b".data, ⟨[2]⟩), ("a".data, ⟨[1]⟩)], FmtSharp⟩).Perm
      (List.map Prod.fst [("b".data, (⟨[2]⟩ : Seq)), ("a".data, ⟨[1]⟩)]) :=
  (claim_C5_seqnames_display ⟨[("b".data, ⟨[2]⟩), ("a".data, ⟨[1]⟩)], FmtSharp⟩
    (by decide)).2.1

/-- Folding `Manager.Add` over a list of file names (the caller loop
`for _, f := range filenames { man.Add(f) }`). -/
def addAll (m : Manager) (fs : List (List Char)) : Manager :=
  fs.foldl (fun m f => (m.Add f).1) m

/-- Whether every `Add` call in the fold succeeds. -/
def addAllOk : Manager → List (List Char) → Bool
  | _, [] => true
  | m, f :: fs => (m.Add f).2.isNone && addAllOk (m.Add f).1 fs

/-- The identity and frame `Manager.Add` derives from a file name under a
given formatter, `none` when the splitter rejects the name. -/
def addInfo (fmt : List Char → List Char → List Char → List Char)
    (fname : List Char) : Option (List Char × Int) :=
  match splitDefault fname with
  | .error _ => none
  | .ok (pre, digits, post) => some (fmt pre digits post, atoiFrame digits)

/-- The identity `Manager.Add` files `fname` under (when it splits). -/
def infoName (fmt : List Char → List Char → List Char → List Char)
    (fname : List Char) : List Char :=
  ((addInfo fmt fname).getD ([], 0)).1

/-- The frame `Manager.Add` parses out of `fname` (when it splits). -/
def infoFrame (fmt : List Char → List Char → List Char → List Char)
    (fname : List Char) : Int :=
  ((addInfo fmt fname).getD ([], 0)).2

/-- The frames currently stored under identity `n` (empty when absent). -/
def framesAt (m : Manager) (n : List Char) : List Int :=
  ((lookupSeq m.Seqs n).getD NewSeq).frames

lemma lookupSeq_storeSeq_same (L : List (List Char × Seq)) (n : List Char) (s : Seq) :
    lookupSeq (storeSeq L n s) n = some s := by
  induction L with
  | nil => simp [storeSeq, lookupSeq]
  | cons kv rest ih =>
    obtain ⟨k, v⟩ := kv
    by_cases h : k = n <;> simp [storeSeq, lookupSeq, h, ih]

lemma lookupSeq_storeSeq_other (L : List (List Char × Seq)) {n n' : List Char}
    (s : Seq) (h : n' ≠ n) :
    lookupSeq (storeSeq L n s) n' = lookupSeq L n' := by
  induction L with
  | nil => simp [storeSeq, lookupSeq, Ne.symm h]
  | cons kv rest ih =>
    obtain ⟨k, v⟩ := kv
    by_cases hk : k = n
    · subst hk
      have hkn : ¬(k = n') := fun hh => h hh.symm
      simp [storeSeq, lookupSeq, hkn]
    · simp [storeSeq, lookupSeq, hk, ih]

lemma storeSeq_lookup_self (L : List (List Char × Seq)) {n : List Char} {s : Seq}
    (h : lookupSeq L n = some s) : storeSeq L n s = L := by
  induction L with
  | nil => simp [lookupSeq] at h
  | cons kv rest ih =>
    obtain ⟨k, v⟩ := kv
    by_cases hk : k = n
    · subst hk
      simp only [lookupSeq, if_true, eq_self_iff_true, Option.some.injEq] at h
      simp [storeSeq, h]
    · simp only [lookupSeq, if_neg hk] at h
      simp [storeSeq, hk, ih h]

lemma keysOf_storeSeq (L : List (List Char × Seq)) (n : List Char) (s : Seq) :
    (storeSeq L n s).map Prod.fst =
      if n ∈ L.map Prod.fst then L.map Prod.fst else L.map Prod.fst ++ [n] := by
  induction L with
  | nil => simp [storeSeq]
  | cons kv rest ih =>
    obtain ⟨k, v⟩ := kv
    by_cases hk : k = n
    · subst hk
      simp [storeSeq]
    · have hnk : ¬(n = k) := fun hh => hk hh.symm
      by_cases h2 : n ∈ rest.map Prod.fst <;>
        simp [storeSeq, hk, ih, h2, hnk]

lemma lookupSeq_eq_none_iff (L : List (List Char × Seq)) (n : List Char) :
    lookupSeq L n = none ↔ n ∉ L.map Prod.fst := by
  induction L with
  | nil => simp [lookupSeq]
  | cons kv rest ih =>
    obtain ⟨k, v⟩ := kv
    by_cases hk : k = n
    · subst hk
      simp [lookupSeq]
    · have hnk : ¬(n = k) := fun hh => hk hh.symm
      simp [lookupSeq, hk, hnk, ih]

/-- `atoiFrame` never yields a negative frame. -/
lemma atoiFrame_nonneg (ds : List Char) : 0 ≤ atoiFrame ds :=
  le_min (Int.natCast_nonneg _) (by norm_num)

/-- Full characterization of one `Manager.Add` step on a name the splitter
accepts: it succeeds exactly when the frame is fresh for its identity, the
formatter is untouched, the frame list of that identity gains the frame on
success (all else unchanged), and the identity is appended to the key list
exactly when it is new. -/
lemma Manager.Add_char (m : Manager) {fname name : List Char} {frame : Int}
    (h : addInfo m.formatting fname = some (name, frame)) :
    ((m.Add fname).2 = none ↔ frame ∉ framesAt m name) ∧
    (m.Add fname).1.formatting = m.formatting ∧
    (∀ n', framesAt (m.Add fname).1 n' =
      if frame ∉ framesAt m name then
        (if n' = name then frame :: framesAt m n' else framesAt m n')
      else framesAt m n') ∧
    ((m.Add fname).1.Seqs.map Prod.fst =
      if name ∈ m.Seqs.map Prod.fst then m.Seqs.map Prod.fst
      else m.Seqs.map Prod.fst ++ [name]) := by
  unfold addInfo at h
  cases hs : splitDefault fname with
  | error e => rw [hs] at h; exact absurd h (by simp)
  | ok t =>
    obtain ⟨pre, digits, post⟩ := t
    rw [hs] at h
    simp only [Option.some.injEq, Prod.mk.injEq] at h
    obtain ⟨hname, hframe⟩ := h
    have hnn : ¬(atoiFrame digits < 0) := not_lt.mpr (atoiFrame_nonneg digits)
    subst hname hframe
    set nm := m.formatting pre digits post with hnm
    by_cases hmem : atoiFrame digits ∈ framesAt m nm
    · -- the frame already exists: `AddFrame` fails, the map is unchanged
      rcases hlk : lookupSeq m.Seqs nm with _ | s
      · exact absurd hmem (by simp [framesAt, hlk, NewSeq])
      have hfr : framesAt m nm = s.frames := by simp [framesAt, hlk]
      have hAF : Seq.AddFrame s (atoiFrame digits) = (some Err.FrameExists, s) := by
        rw [hfr] at hmem
        simp [Seq.AddFrame, hnn, hmem]
      have hadd : m.Add fname =
          ({ m with Seqs := storeSeq m.Seqs nm s }, some Err.FrameExists) := by
        simp only [Manager.Add, hs, ← hnm, hlk, Option.getD_some, hAF]
      have hstore : storeSeq m.Seqs nm s = m.Seqs := storeSeq_lookup_self _ hlk
      rw [hadd]
      have hmem' : atoiFrame digits ∈ ((lookupSeq m.Seqs nm).getD NewSeq).frames := hmem
      refine ⟨by simp [hmem], rfl, fun n' => ?_, ?_⟩
      · simp [framesAt, hstore, hmem']
      · rw [hstore]
        have : nm ∈ m.Seqs.map Prod.fst := by
          by_contra hcon
          rw [← lookupSeq_eq_none_iff] at hcon
          rw [hcon] at hlk
          exact absurd hlk (by simp)
        simp [this]
    · -- fresh frame: `AddFrame` succeeds and the frame is prepended
      have hAF : Seq.AddFrame ((lookupSeq m.Seqs nm).getD NewSeq) (atoiFrame digits) =
          (none, ⟨atoiFrame digits :: framesAt m nm⟩) := by
        have : atoiFrame digits ∉ ((lookupSeq m.Seqs nm).getD NewSeq).frames := hmem
        simp [Seq.AddFrame, hnn, this, framesAt]
      have hadd : m.Add fname =
          ({ m with Seqs := storeSeq m.Seqs nm ⟨atoiFrame digits :: framesAt m nm⟩ },
            none) := by
        simp only [Manager.Add, hs, ← hnm, hAF]
      rw [hadd]
      have hmem' : atoiFrame digits ∉ ((lookupSeq m.Seqs nm).getD NewSeq).frames := hmem
      refine ⟨by simp [hmem], rfl, fun n' => ?_, ?_⟩
      · by_cases hn' : n' = nm
        · subst hn'
          simp [framesAt, lookupSeq_storeSeq_same, hmem']
        · simp [framesAt, lookupSeq_storeSeq_other _ _ hn', hmem', hn']
      · exact keysOf_storeSeq m.Seqs nm _

/-- Folding `Manager.Add` over any batch of splittable file names whose
(identity, frame) pairs are pairwise distinct and fresh: every call
succeeds, the formatter is untouched, each identity's frame list ends up
holding (a permutation of) the batch's frames for it plus the old ones,
the key set is the old one plus the batch's identities, and key
duplicate-freeness is preserved. -/
lemma addAll_spec (fmt : List Char → List Char → List Char → List Char)
    (l : List (List Char)) (m : Manager)
    (hfmt : m.formatting = fmt)
    (hsplit : ∀ f ∈ l, (addInfo fmt f).isSome = true)
    (hnodup : (l.map fun f => (addInfo fmt f).getD ([], 0)).Nodup)
    (hfresh : ∀ f ∈ l, infoFrame fmt f ∉ framesAt m (infoName fmt f)) :
    addAllOk m l = true ∧
    (addAll m l).formatting = fmt ∧
    (∀ n, (framesAt (addAll m l) n).Perm
      (((l.filter fun f => decide (infoName fmt f = n)).map (infoFrame fmt)) ++
        framesAt m n)) ∧
    (∀ n, n ∈ (addAll m l).Seqs.map Prod.fst ↔
      n ∈ m.Seqs.map Prod.fst ∨ n ∈ l.map (infoName fmt)) ∧
    ((m.Seqs.map Prod.fst).Nodup → ((addAll m l).Seqs.map Prod.fst).Nodup) := by
  induction l generalizing m with
  | nil =>
    refine ⟨rfl, hfmt, fun n => by simp [addAll], fun n => by simp [addAll],
      fun h => h⟩
  | cons f fs ih =>
    have hsome := hsplit f (List.mem_cons_self _ _)
    obtain ⟨⟨name, frame⟩, hinfo⟩ := Option.isSome_iff_exists.mp hsome
    have hname : infoName fmt f = name := by simp [infoName, hinfo]
    have hframe : infoFrame fmt f = frame := by simp [infoFrame, hinfo]
    have hinfo' : addInfo m.formatting f = some (name, frame) := by
      rw [hfmt]; exact hinfo
    obtain ⟨hok1, hfmt1, hframes1, hkeys1⟩ := Manager.Add_char m hinfo'
    have hfreshf : frame ∉ framesAt m name := by
      have := hfresh f (List.mem_cons_self _ _)
      rwa [hname, hframe] at this
    set m' := (m.Add f).1 with hm'
    have hoknone : (m.Add f).2 = none := hok1.mpr hfreshf
    have hfmt' : m'.formatting = fmt := by rw [← hfmt]; exact hfmt1
    have hframesAt' : ∀ n, framesAt m' n =
        if n = name then frame :: framesAt m n else framesAt m n := by
      intro n
      rw [hm', hframes1 n, if_pos hfreshf]
    have hsplit' : ∀ g ∈ fs, (addInfo fmt g).isSome = true := fun g hg =>
      hsplit g (List.mem_cons_of_mem _ hg)
    have hnodup' : (fs.map fun g => (addInfo fmt g).getD ([], 0)).Nodup :=
      (List.nodup_cons.mp (by simpa using hnodup)).2
    have hpair_notin : ((addInfo fmt f).getD ([], 0)) ∉
        fs.map fun g => (addInfo fmt g).getD ([], 0) :=
      (List.nodup_cons.mp (by simpa using hnodup)).1
    have hfresh' : ∀ g ∈ fs, infoFrame fmt g ∉ framesAt m' (infoName fmt g) := by
      intro g hg
      rw [hframesAt' (infoName fmt g)]
      by_cases hng : infoName fmt g = name
      · rw [if_pos hng]
        intro hmemc
        rcases List.mem_cons.mp hmemc with h | h
        · apply hpair_notin
          have he : (addInfo fmt g).getD ([], 0) = (addInfo fmt f).getD ([], 0) :=
            Prod.ext_iff.mpr ⟨hng.trans hname.symm, h.trans hframe.symm⟩
          exact he ▸ List.mem_map_of_mem _ hg
        · exact hfresh g (List.mem_cons_of_mem _ hg) h
      · rw [if_neg hng]
        exact hfresh g (List.mem_cons_of_mem _ hg)
    obtain ⟨ihok, ihfmt, ihframes, ihkeys, ihnodup⟩ :=
      ih m' hfmt' hsplit' hnodup' hfresh'
    have haddAll : addAll m (f :: fs) = addAll m' fs := by
      simp [addAll]
    refine ⟨?_, by rw [haddAll]; exact ihfmt, fun n => ?_, fun n => ?_,
      fun hnd => ?_⟩
    · have hstep : addAllOk m (f :: fs) =
          ((m.Add f).2.isNone && addAllOk (m.Add f).1 fs) := rfl
      rw [hstep, hoknone, ← hm']
      simpa using ihok
    · rw [haddAll]
      have base := ihframes n
      rw [hframesAt' n] at base
      by_cases hn : n = name
      · subst hn
        rw [if_pos rfl] at base
        have hfilter : (f :: fs).filter (fun g => decide (infoName fmt g = n)) =
            f :: fs.filter (fun g => decide (infoName fmt g = n)) := by
          simp [List.filter_cons, hname]
        rw [hfilter, List.map_cons, hframe, List.cons_append]
        exact base.trans List.perm_middle
      · have hnn : ¬(infoName fmt f = n) := by
          rw [hname]; exact fun hh => hn hh.symm
        have hfilter : (f :: fs).filter (fun g => decide (infoName fmt g = n)) =
            fs.filter (fun g => decide (infoName fmt g = n)) := by
          simp [List.filter_cons, hnn]
        rw [if_neg hn] at base
        rw [hfilter]
        exact base
    · rw [haddAll, ihkeys n]
      have hk' : n ∈ m'.Seqs.map Prod.fst ↔
          n ∈ m.Seqs.map Prod.fst ∨ n = name := by
        rw [hm', hkeys1]
        by_cases hmemk : name ∈ m.Seqs.map Prod.fst
        · rw [if_pos hmemk]
          constructor
          · exact Or.inl
          · rintro (h | rfl)
            · exact h
            · exact hmemk
        · rw [if_neg hmemk]
          simp [List.mem_append]
      rw [hk', List.map_cons, hname, List.mem_cons]
      tauto
    · rw [haddAll]
      apply ihnodup
      rw [hm', hkeys1]
      by_cases hmemk : name ∈ m.Seqs.map Prod.fst
      · rwa [if_pos hmemk]
      · rw [if_neg hmemk]
        simp [List.nodup_append, hnd, hmemk]

/-- The display string of a sequence depends on its frames only up to
permutation, because the frames are sorted before rendering. -/
lemma seq_display_congr {fr₁ fr₂ : List Int} (h : fr₁.Perm fr₂) :
    Seq.toDisplayString ⟨fr₁⟩ = Seq.toDisplayString ⟨fr₂⟩ := by
  have hs : Seq.sortedFrames ⟨fr₁⟩ = Seq.sortedFrames ⟨fr₂⟩ :=
    List.eq_of_perm_of_sorted
      ((List.perm_insertionSort _ _).trans
        (h.trans (List.perm_insertionSort _ _).symm))
      (List.sorted_insertionSort _ _) (List.sorted_insertionSort _ _)
  unfold Seq.toDisplayString Seq.Ranges
  rw [hs]

/-- The eight file names of the end-to-end scenario, in the documented
order. -/
def files8 : List (List Char) :=
  ["/a/b/c/img.0001.exr".data, "/a/b/c/img.0002.exr".data,
   "/a/b/c/img.0003.exr".data, "/a/b/c/img.0004.exr".data,
   "/a/b/c/img.0098.exr".data, "/a/b/c/img.0099.exr".data,
   "/a/b/c/img.0100.exr".data, "/d/e/f/img.00001.exr".data]

/-- C1: adding the eight documented file names in any order to a fresh
Manager with the default splitter and Sharp formatter succeeds on every
call, and the rendering is exactly the two documented lines joined by one
line feed with no trailing newline. -/
theorem claim_C1_end_to_end (l : List (List Char)) (hl : l.Perm files8) :
    addAllOk (NewManager FmtSharp) l = true ∧
    (addAll (NewManager FmtSharp) l).toDisplayString =
      "/a/b/c/img.####.exr 1-4 98-100\n/d/e/f/img.#####.exr 1".data := by
  set A := "/a/b/c/img.####.exr".data with hA
  set B := "/d/e/f/img.#####.exr".data with hB
  have hsplit : ∀ f ∈ l, (addInfo FmtSharp f).isSome = true := by
    intro f hf
    have hall : ∀ f ∈ files8, (addInfo FmtSharp f).isSome = true := by decide
    exact hall f (hl.mem_iff.mp hf)
  have hnodup : (l.map fun f => (addInfo FmtSharp f).getD ([], 0)).Nodup := by
    have h8 : (files8.map fun f => (addInfo FmtSharp f).getD ([], 0)).Nodup := by
      decide
    exact ((hl.map _).nodup_iff).mpr h8
  have hfresh : ∀ f ∈ l,
      infoFrame FmtSharp f ∉ framesAt (NewManager FmtSharp) (infoName FmtSharp f) := by
    intro f _
    simp [framesAt, NewManager, lookupSeq, NewSeq]
  obtain ⟨hok, hfmt, hframes, hkeys, hnodupk⟩ :=
    addAll_spec FmtSharp l (NewManager FmtSharp) rfl hsplit hnodup hfresh
  refine ⟨hok, ?_⟩
  set mf := addAll (NewManager FmtSharp) l with hmf
  have hmapnames : files8.map (infoName FmtSharp) = [A, A, A, A, A, A, A, B] := by
    decide
  have hmemk : ∀ n, n ∈ mf.Seqs.map Prod.fst ↔ n = A ∨ n = B := by
    intro n
    rw [hkeys n]
    have hmm : n ∈ l.map (infoName FmtSharp) ↔ n ∈ files8.map (infoName FmtSharp) :=
      (hl.map _).mem_iff
    rw [hmm, hmapnames]
    simp [NewManager]
  have hndk : (mf.Seqs.map Prod.fst).Nodup := hnodupk (by simp [NewManager])
  have hABnodup : ([A, B] : List (List Char)).Nodup := by decide
  have hpermAB : (mf.Seqs.map Prod.fst).Perm [A, B] := by
    rw [List.perm_ext_iff_of_nodup hndk hABnodup]
    intro n
    rw [hmemk n]
    simp
  have hseqnames : mf.SeqNames = [A, B] := by
    apply List.eq_of_perm_of_sorted ((List.perm_insertionSort _ _).trans hpermAB)
      (List.sorted_insertionSort _ _)
    decide
  have hfA : (framesAt mf A).Perm [1, 2, 3, 4, 98, 99, 100] := by
    have base := hframes A
    have hempty : framesAt (NewManager FmtSharp) A = [] := rfl
    rw [hempty, List.append_nil] at base
    have hfilt := (hl.filter (fun f => decide (infoName FmtSharp f = A))).map
      (infoFrame FmtSharp)
    have hconc : (files8.filter fun f => decide (infoName FmtSharp f = A)).map
        (infoFrame FmtSharp) = [1, 2, 3, 4, 98, 99, 100] := by decide
    have := base.trans hfilt
    rwa [hconc] at this
  have hfB : (framesAt mf B).Perm [1] := by
    have base := hframes B
    have hempty : framesAt (NewManager FmtSharp) B = [] := rfl
    rw [hempty, List.append_nil] at base
    have hfilt := (hl.filter (fun f => decide (infoName FmtSharp f = B))).map
      (infoFrame FmtSharp)
    have hconc : (files8.filter fun f => decide (infoName FmtSharp f = B)).map
        (infoFrame FmtSharp) = [1] := by decide
    have := base.trans hfilt
    rwa [hconc] at this
  have hdispA : ((lookupSeq mf.Seqs A).getD NewSeq).toDisplayString =
      "1-4 98-100".data := by
    have h1 : ((lookupSeq mf.Seqs A).getD NewSeq).toDisplayString =
        Seq.toDisplayString ⟨framesAt mf A⟩ := rfl
    rw [h1, seq_display_congr hfA]
    decide
  have hdispB : ((lookupSeq mf.Seqs B).getD NewSeq).toDisplayString =
      "1".data := by
    have h1 : ((lookupSeq mf.Seqs B).getD NewSeq).toDisplayString =
        Seq.toDisplayString ⟨framesAt mf B⟩ := rfl
    rw [h1, seq_display_congr hfB]
    decide
  show mf.toDisplayString = _
  unfold Manager.toDisplayString
  rw [hseqnames]
  simp only [List.map_cons, List.map_nil]
  rw [hdispA, hdispB, hA, hB]
  decide

theorem claim_C1_end_to_end_witness :
    addAllOk (NewManager FmtSharp)
      ["/d/e/f/img.00001.exr".data, "/a/b/c/img.0100.exr".data,
       "/a/b/c/img.0099.exr".data, "/a/b/c/img.0098.exr".data,
       "/a/b/c/img.0004.exr".data, "/a/b/c/img.0003.exr".data,
       "/a/b/c/img.0002.exr".data, "/a/b/c/img.0001.exr".data] = true ∧
    (addAll (NewManager FmtSharp)
      ["/d/e/f/img.00001.exr".data, "/a/b/c/img.0100.exr".data,
       "/a/b/c/img.0099.exr".data, "/a/b/c/img.0098.exr".data,
       "/a/b/c/img.0004.exr".data, "/a/b/c/img.0003.exr".data,
       "/a/b/c/img.0002.exr".data, "/a/b/c/img.0001.exr".data]).toDisplayString =
      "/a/b/c/img.####.exr 1-4 98-100\n/d/e/f/img.#####.exr 1".data :=
  claim_C1_end_to_end _ (by decide)

/-- C10: a name ending in a digit splits with an empty suffix; an all-digit
name splits with empty prefix and suffix; consequently `Manager.Add`
accepts such names, creating identities like `"img.####"` and `"####"`
under the Sharp formatter, rather than failing with `NotSequenceFile`. -/
theorem claim_C10_trailing_run (name : List Char) (c : Char) :
    (name.getLast? = some c → c.isDigit = true →
      ∃ pre digits, splitDefault name = .ok (pre, digits, [])) ∧
    (name ≠ [] → (∀ d ∈ name, d.isDigit = true) →
      splitDefault name = .ok ([], name, [])) ∧
    splitDefault "img.0001".data = .ok ("img.".data, "0001".data, []) ∧
    splitDefault "0001".data = .ok ([], "0001".data, []) ∧
    ((NewManager FmtSharp).Add "img.0001".data).2 = none ∧
    lookupSeq ((NewManager FmtSharp).Add "img.0001".data).1.Seqs "img.####".data =
      some ⟨[1]⟩ ∧
    ((NewManager FmtSharp).Add "0001".data).2 = none ∧
    lookupSeq ((NewManager FmtSharp).Add "0001".data).1.Seqs "####".data =
      some ⟨[1]⟩ := by
  refine ⟨?_, ?_, by decide, by decide, by decide, by decide, by decide, by decide⟩
  · intro hlast hdig
    have hrev : name.reverse.head? = some c := by
      rw [List.head?_reverse]; exact hlast
    rcases hA : name.reverse with _ | ⟨b, t⟩
    · rw [hA] at hrev; exact absurd hrev (by simp)
    · rw [hA] at hrev
      have hbc : b = c := by simpa using hrev
      subst hbc
      have hpost : List.takeWhile (fun x => !x.isDigit) name.reverse = [] := by
        rw [hA, List.takeWhile_cons]; simp [hdig]
      have hrest : List.dropWhile (fun x => !x.isDigit) name.reverse = b :: t := by
        rw [hA, List.dropWhile_cons]; simp [hdig]
      have hok : splitDefault name = .ok
          ((match List.dropWhile (fun x : Char => x.isDigit) (b :: t) with
            | [] => ([] : List Char)
            | c :: cs => c :: cs.takeWhile (fun x => x ≠ '\n')).reverse,
           (List.takeWhile (fun x : Char => x.isDigit) (b :: t)).reverse, []) := by
        simp only [splitDefault]
        rw [hpost, hrest]
        rw [if_neg (by simp [List.takeWhile_cons, hdig])]
        rw [List.reverse_nil]
      exact ⟨_, _, hok⟩
  · intro hne hall
    have hrevall : ∀ d ∈ name.reverse, d.isDigit = true := fun d hd =>
      hall d (by simpa using hd)
    have htw : List.takeWhile (fun c => !c.isDigit) name.reverse = [] := by
      rcases hA : name.reverse with _ | ⟨b, t⟩
      · rfl
      · have : b.isDigit = true := hrevall b (by simp [hA])
        rw [List.takeWhile_cons]
        simp [this]
    have hdw : List.dropWhile (fun c => !c.isDigit) name.reverse = name.reverse := by
      rcases hA : name.reverse with _ | ⟨b, t⟩
      · rfl
      · have : b.isDigit = true := hrevall b (by simp [hA])
        rw [List.dropWhile_cons]
        simp [this]
    have htq : List.takeWhile (fun c => c.isDigit) name.reverse = name.reverse :=
      List.takeWhile_eq_self_iff.mpr hrevall
    have hdq : List.dropWhile (fun c => c.isDigit) name.reverse = [] :=
      List.dropWhile_eq_nil_iff.mpr hrevall
    have hrne : name.reverse ≠ [] := by
      simpa using hne
    simp only [splitDefault]
    rw [htw, hdw, htq, hdq]
    rw [if_neg (by simp [hrne])]
    simp

theorem claim_C10_trailing_run_witness :
    (∃ pre digits, splitDefault "v2_07".data = .ok (pre, digits, [])) ∧
    splitDefault "123".data = .ok ([], "123".data, []) :=
  ⟨(claim_C10_trailing_run "v2_07".data '7').1 (by decide) (by decide),
   (claim_C10_trailing_run "123".data '3').2.1 (by decide) (by decide)⟩

/-- C9 counterexample: Go's `int` is 64-bit, so `r.Max+1` wraps.  At
`Max = 2^63 - 1` — a value reachable through the ignored `Atoi` range
error — `Max+1` wraps to `-2^63`, and `Extend (-2^63)` returns `true` and
sets `Max := -2^63`, although `-2^63 ≠ Max + 1` mathematically;
the claim says every such `f` returns `false` and changes nothing. -/
theorem claim_C9_counterexample :
    Range.Extend ⟨0, 2 ^ 63 - 1⟩ (-(2 ^ 63)) = (true, ⟨0, -(2 ^ 63)⟩) ∧
    (-(2 ^ 63) : Int) ≠ (2 ^ 63 - 1) + 1 :=
  ⟨by decide, by decide⟩

/-- C9 amended: `Extend(f)` succeeds and sets `Max := f` exactly when `f`
equals `Max + 1` computed with 64-bit wraparound; any other `f` returns
`false` and changes nothing.  For a `Max` that is a representable int64
other than the top value `2^63 - 1` (every `Max` the package itself can
produce below the `Atoi` clamp), this is exactly the mathematical
`f = Max + 1`.  `Min` is never modified, and `NewRange f` starts with
`Min = Max = f`. -/
theorem claim_C9_range_extend (r : Range) (f : Int) :
    (f = wrap64 (r.Max + 1) → r.Extend f = (true, ⟨r.Min, f⟩)) ∧
    (f ≠ wrap64 (r.Max + 1) → r.Extend f = (false, r)) ∧
    (-(2 ^ 63) ≤ r.Max → r.Max < 2 ^ 63 - 1 →
      (r.Extend f = (true, ⟨r.Min, f⟩) ↔ f = r.Max + 1)) ∧
    ((r.Extend f).2.Min = r.Min) ∧
    (∀ g : Int, NewRange g = ⟨g, g⟩) := by
  have hext_t : f = wrap64 (r.Max + 1) → r.Extend f = (true, ⟨r.Min, f⟩) := by
    intro h
    unfold Range.Extend
    rw [if_neg (not_not_intro h)]
  have hext_f : f ≠ wrap64 (r.Max + 1) → r.Extend f = (false, r) := by
    intro h
    unfold Range.Extend
    rw [if_pos h]
  refine ⟨hext_t, hext_f, ?_, ?_, fun g => rfl⟩
  · intro h1 h2
    have hw : wrap64 (r.Max + 1) = r.Max + 1 := wrap64_eq_self (by omega) (by omega)
    constructor
    · intro hext
      by_cases hf : f = wrap64 (r.Max + 1)
      · rw [hw] at hf
        exact hf
      · rw [hext_f hf] at hext
        exact absurd (congrArg Prod.fst hext) (by simp)
    · intro hf
      exact hext_t (by rw [hw]; exact hf)
  · by_cases hf : f = wrap64 (r.Max + 1)
    · rw [hext_t hf]
    · rw [hext_f hf]

theorem claim_C9_range_extend_witness :
    Range.Extend ⟨1, 2⟩ 3 = (true, ⟨1, 3⟩) ∧
    Range.Extend ⟨1, 2⟩ 5 = (false, ⟨1, 2⟩) ∧
    (Range.Extend ⟨1, 2⟩ 3 = (true, ⟨1, 3⟩) ↔ (3 : Int) = 2 + 1) :=
  ⟨(claim_C9_range_extend ⟨1, 2⟩ 3).1 (by decide),
   (claim_C9_range_extend ⟨1, 2⟩ 5).2.1 (by decide),
   (claim_C9_range_extend ⟨1, 2⟩ 3).2.2.1 (by decide) (by decide)⟩

/-- C4: `AddFrame f` fails with `NegativeFrame` when `f < 0`, fails with
`FrameExists` when `f` is already a member, otherwise succeeds and inserts
exactly `f`; on both failures the frame set is unchanged. -/
theorem claim_C4_addframe (s : Seq) (f : Int) :
    (f < 0 → s.AddFrame f = (some .NegativeFrame, s)) ∧
    (0 ≤ f → f ∈ s.frames → s.AddFrame f = (some .FrameExists, s)) ∧
    (0 ≤ f → f ∉ s.frames → s.AddFrame f = (none, ⟨f :: s.frames⟩)) := by
  refine ⟨fun h => by simp [Seq.AddFrame, h], fun h h' => ?_, fun h h' => ?_⟩ <;>
    simp [Seq.AddFrame, not_lt.mpr h, h']

theorem claim_C4_addframe_witness :
    NewSeq.AddFrame (-1) = (some .NegativeFrame, NewSeq) ∧
    (NewSeq.AddFrame 5).2.AddFrame 5 = (some .FrameExists, (NewSeq.AddFrame 5).2) :=
  ⟨(claim_C4_addframe NewSeq (-1)).1 (by decide),
   (claim_C4_addframe (NewSeq.AddFrame 5).2 5).2.1 (by decide) (by decide)⟩

/-- C6: the three formatters on `("img.", "0001", ".exr")` give
`"img.####.exr"`, `"img.$F4.exr"` and `"img.%04d.exr"`, and each depends
only on the length of the digit string, never on its value. -/
theorem claim_C6_formatters :
    FmtSharp "img.".data "0001".data ".exr".data = "img.####.exr".data ∧
    FmtDollarF "img.".data "0001".data ".exr".data = "img.$F4.exr".data ∧
    FmtPercentD "img.".data "0001".data ".exr".data = "img.%04d.exr".data ∧
    (∀ pre post d₁ d₂ : List Char, d₁.length = d₂.length →
      FmtSharp pre d₁ post = FmtSharp pre d₂ post ∧
      FmtDollarF pre d₁ post = FmtDollarF pre d₂ post ∧
      FmtPercentD pre d₁ post = FmtPercentD pre d₂ post) := by
  refine ⟨by decide, by decide, by decide, fun pre post d₁ d₂ h => ?_⟩
  simp [FmtSharp, FmtDollarF, FmtPercentD, h]

theorem claim_C6_formatters_witness :
    FmtSharp "a".data "12".data "b".data = FmtSharp "a".data "98".data "b".data ∧
    FmtDollarF "a".data "12".data "b".data = FmtDollarF "a".data "98".data "b".data ∧
    FmtPercentD "a".data "12".data "b".data = FmtPercentD "a".data "98".data "b".data :=
  claim_C6_formatters.2.2.2 "a".data "b".data "12".data "98".data (by decide)

end Sequence
